import Mathlib

set_option maxRecDepth 4000

/-!
Shallow embedding of `update_html.py`: an extractor that reads a Markdown
table out of a README (`parse_readme`) and an injector that splices the
JSON-serialized records into an HTML document over the statement
`const data = [...];` (`update_index_html`).

Strings are modelled as `List Char`.  The Python regexes used by the code
are embedded as deterministic character scanners; this is faithful because
in every pattern each `\s*` is followed by a non-whitespace literal (so the
greedy scan never needs to backtrack) and the non-greedy pieces are
first-occurrence scans (with explicit backtracking for `\[(.*?)\]\((.*?)\)`).
-/

/-- Python's `\s` character class (ASCII part), also used by `str.strip`. -/
def isSpace (c : Char) : Bool :=
  c = ' ' || c = '\t' || c = '\n' || c = '\r' || c = '\x0b' || c = '\x0c'

/-- Python `str.strip()`: drop whitespace from both ends. -/
def pyStrip (cs : List Char) : List Char :=
  ((cs.dropWhile isSpace).reverse.dropWhile isSpace).reverse

/-- Python `str.split('\n')` (keeps empty pieces, total piece count = newlines + 1). -/
def splitLines : List Char → List (List Char)
  | [] => [[]]
  | c :: rest =>
    if c = '\n' then [] :: splitLines rest
    else
      match splitLines rest with
      | [] => [[c]]
      | l :: ls => (c :: l) :: ls

/-- Python `str.split('|')` (keeps empty pieces). -/
def splitPipes : List Char → List (List Char)
  | [] => [[]]
  | c :: rest =>
    if c = '|' then [] :: splitPipes rest
    else
      match splitPipes rest with
      | [] => [[c]]
      | l :: ls => (c :: l) :: ls

/-- Does `cs` start with the literal `pat`? -/
def startsWithList : List Char → List Char → Bool
  | [], _ => true
  | _ :: _, [] => false
  | p :: ps, c :: cs => p = c && startsWithList ps cs

/-- Python `pat in s` (substring test). -/
def containsSub (pat : List Char) : List Char → Bool
  | [] => startsWithList pat []
  | c :: rest => startsWithList pat (c :: rest) || containsSub pat rest

/-- Case-insensitive literal matcher (re.IGNORECASE on ASCII); returns the rest. -/
def matchCI : List Char → List Char → Option (List Char)
  | [], cs => some cs
  | _ :: _, [] => none
  | p :: ps, c :: cs => if c.toLower = p.toLower then matchCI ps cs else none

/-- The seven column names of the README table header. -/
def headerCols : List (List Char) :=
  ["Time".data, "Venue".data, "Paper".data, "Research Question/Idea".data,
   "Method".data, "Remark".data, "Bib".data]

/-- After the opening `|`, match `\s*Name\s*\|` for each column name. -/
def matchHeaderCols : List (List Char) → List Char → Option (List Char)
  | [], cs => some cs
  | col :: cols, cs =>
    match matchCI col (cs.dropWhile isSpace) with
    | none => none
    | some cs2 =>
      match cs2.dropWhile isSpace with
      | [] => none
      | c :: rest => if c = '|' then matchHeaderCols cols rest else none

/-- Match the header regex of `parse_readme` at the head of `cs`; returns the
text after the match end. -/
def matchHeaderAt : List Char → Option (List Char)
  | [] => none
  | c :: rest => if c = '|' then matchHeaderCols headerCols rest else none

/-- `re.search` for the header pattern: leftmost match, text after its end. -/
def searchHeader : List Char → Option (List Char)
  | [] => none
  | c :: rest =>
    match matchHeaderAt (c :: rest) with
    | some r => some r
    | none => searchHeader rest

/-- Scan for the non-greedy `(.*?)\)` part of the link pattern: shortest
newline-free run up to the first `)`.  Returns (group, rest after `)`). -/
def scanParen : List Char → Option (List Char × List Char)
  | [] => none
  | c :: rest =>
    if c = ')' then some ([], rest)
    else if c = '\n' then none
    else (scanParen rest).map fun p => (c :: p.1, p.2)

/-- Scan for `(.*?)\]\((.*?)\)` after the opening `[`: the shortest
newline-free group 1 followed by `](`, then group 2 up to the first `)`.
When the parenthesized part fails, the `](` boundary is retried further
right (regex backtracking).  Returns (group1, group2, rest). -/
def scanBody : List Char → Option (List Char × List Char × List Char)
  | [] => none
  | c :: rest =>
    if c = '\n' then none
    else if c = ']' ∧ rest.head? = some '(' then
      match scanParen rest.tail with
      | some (g2, r) => some ([], g2, r)
      | none => (scanBody rest).map fun p => (c :: p.1, p.2.1, p.2.2)
    else (scanBody rest).map fun p => (c :: p.1, p.2.1, p.2.2)

/-- Match `\[(.*?)\]\((.*?)\)` at the head of the input. -/
def matchLinkAt : List Char → Option (List Char × List Char × List Char)
  | [] => none
  | c :: rest => if c = '[' then scanBody rest else none

/-- Fuel-driven scan for the link substitution; the fuel only bounds the
recursion (any fuel at least the input length gives the same result). -/
def linkSubF : Nat → List Char → List Char
  | 0, _ => []
  | n + 1, cs =>
    match matchLinkAt cs with
    | some (g1, g2, r) =>
      "<a href=\"".data ++ g2 ++ "\">".data ++ g1 ++ "</a>".data ++ linkSubF n r
    | none =>
      match cs with
      | [] => []
      | c :: rest => c :: linkSubF n rest

/-- `re.sub(r'\[(.*?)\]\((.*?)\)', r'<a href="\2">\1</a>', s)`: global
left-to-right replacement, continuing after each match end. -/
def linkSub (cs : List Char) : List Char :=
  linkSubF cs.length cs

/-- Scan for the non-greedy `(.*?)\*\*`: shortest newline-free run up to the
first `**`.  Returns (group, rest after the closing `**`). -/
def scanStar : List Char → Option (List Char × List Char)
  | [] => none
  | c :: rest =>
    if c = '*' ∧ rest.head? = some '*' then some ([], rest.tail)
    else if c = '\n' then none
    else (scanStar rest).map fun p => (c :: p.1, p.2)

/-- Match `\*\*(.*?)\*\*` at the head of the input. -/
def matchBoldAt : List Char → Option (List Char × List Char)
  | [] => none
  | c :: rest =>
    if c = '*' ∧ rest.head? = some '*' then scanStar rest.tail else none

/-- Fuel-driven scan for the bold substitution. -/
def boldSubF : Nat → List Char → List Char
  | 0, _ => []
  | n + 1, cs =>
    match matchBoldAt cs with
    | some (g, r) =>
      "<strong>".data ++ g ++ "</strong>".data ++ boldSubF n r
    | none =>
      match cs with
      | [] => []
      | c :: rest => c :: boldSubF n rest

/-- `re.sub(r'\*\*(.*?)\*\*', r'<strong>\1</strong>', s)`: global replacement. -/
def boldSub (cs : List Char) : List Char :=
  boldSubF cs.length cs

/-- One table row: is the first (stripped) separator-looking line
`lines[0].strip().startswith('|') and '---' in lines[0]`. -/
def isSepLine (l : List Char) : Bool :=
  ((pyStrip l).head? == some '|') && containsSub "---".data l

/-- Strip one leading and one trailing `|` from the stripped line, as the code
does with `line[1:]` / `line[:-1]`. -/
def stripRow (l : List Char) : List Char :=
  let s := pyStrip l
  let s1 := if s.head? = some '|' then s.tail else s
  if s1.getLast? = some '|' then s1.dropLast else s1

/-- The trimmed cells of a table row line. -/
def colsOf (l : List Char) : List (List Char) :=
  (splitPipes (stripRow l)).map pyStrip

/-- One per-row record, with the seven fields of the injected JSON objects. -/
structure Entry where
  time : String
  venue : String
  paper : String
  question : String
  method : String
  remark : String
  bib : String
  deriving DecidableEq

/-- The body of the row loop of `parse_readme`: `none` means the line is
skipped (`continue`), `some` appends a record. -/
def processLine (l : List Char) : Option Entry :=
  if (pyStrip l).head? = some '|' then
    let cols := colsOf l
    if 6 ≤ cols.length then
      some {
        time := String.mk (cols.getD 0 []),
        venue := String.mk (cols.getD 1 []),
        paper := String.mk (linkSub (cols.getD 2 [])),
        question := String.mk (boldSub (cols.getD 3 [])),
        method := String.mk (boldSub (cols.getD 4 [])),
        remark := String.mk (cols.getD 5 []),
        bib := String.mk (if 6 < cols.length then cols.getD 6 [] else []) }
    else none
  else none

/-- The row loop of `parse_readme` over the lines after the header
(and separator): each line either contributes a record or is skipped. -/
def parseLines (ls : List (List Char)) : List Entry :=
  ls.filterMap processLine

/-- `parse_readme`: find the header, split the text after it into lines, skip
the separator row, and run the row loop. -/
def parse_readme (content : String) : List Entry :=
  match searchHeader content.data with
  | none => []
  | some rest =>
    let lines := splitLines (pyStrip rest)
    let start := if isSepLine (lines.headD []) then 1 else 0
    parseLines (lines.drop start)

/-- One hex digit, lowercase, as produced by Python's `\uXXXX` escapes. -/
def hexDigit (n : Nat) : Char :=
  if n < 10 then Char.ofNat (48 + n) else Char.ofNat (87 + n)

/-- `\uXXXX` for a 16-bit code unit. -/
def hex4 (n : Nat) : List Char :=
  ['\\', 'u', hexDigit (n / 4096 % 16), hexDigit (n / 256 % 16),
   hexDigit (n / 16 % 16), hexDigit (n % 16)]

/-- Python `json.dumps` non-ASCII escape (with surrogate pairs beyond BMP). -/
def uEscape (c : Char) : List Char :=
  let n := c.toNat
  if n < 65536 then hex4 n
  else hex4 (55296 + (n - 65536) / 1024) ++ hex4 (56320 + (n - 65536) % 1024)

/-- Python `json.dumps` (ensure_ascii) escaping of one character. -/
def jsonEscapeChar (c : Char) : List Char :=
  if c = '"' then ['\\', '"']
  else if c = '\\' then ['\\', '\\']
  else if c = '\n' then ['\\', 'n']
  else if c = '\r' then ['\\', 'r']
  else if c = '\t' then ['\\', 't']
  else if c = '\x08' then ['\\', 'b']
  else if c = '\x0c' then ['\\', 'f']
  else if c.toNat < 32 || 126 < c.toNat then uEscape c
  else [c]

/-- Escape a whole string for a JSON string literal. -/
def jsonEscape : List Char → List Char
  | [] => []
  | c :: rest => jsonEscapeChar c ++ jsonEscape rest

/-- A JSON string literal. -/
def jsonStr (s : String) : List Char :=
  '"' :: (jsonEscape s.data ++ ['"'])

/-- One record as a JSON object, as `json.dumps(..., indent=4)` prints it
inside the array (keys in dict insertion order). -/
def entryJson (e : Entry) : List Char :=
  "\x7b\n        \"time\": ".data ++ jsonStr e.time ++
  ",\n        \"venue\": ".data ++ jsonStr e.venue ++
  ",\n        \"paper\": ".data ++ jsonStr e.paper ++
  ",\n        \"question\": ".data ++ jsonStr e.question ++
  ",\n        \"method\": ".data ++ jsonStr e.method ++
  ",\n        \"remark\": ".data ++ jsonStr e.remark ++
  ",\n        \"bib\": ".data ++ jsonStr e.bib ++
  "\n    \x7d".data

/-- The `,\n    `-separated item list of the JSON array. -/
def jsonItems : List Entry → List Char
  | [] => []
  | [e] => entryJson e
  | e :: rest => entryJson e ++ ",\n    ".data ++ jsonItems rest

/-- Everything of `json.dumps(data, indent=4)` strictly between the outer
`[` and `]`. -/
def jsonInterior : List Entry → List Char
  | [] => []
  | l => "\n    ".data ++ jsonItems l ++ ['\n']

/-- `json.dumps(data, indent=4)`: `[]` for no records, otherwise the items
indented by four spaces. -/
def jsonDumps (l : List Entry) : List Char :=
  '[' :: (jsonInterior l ++ [']'])

/-- `new_data_json.replace('\\', '\\\\')`: double every backslash. -/
def doubleBackslash : List Char → List Char
  | [] => []
  | c :: rest =>
    if c = '\\' then '\\' :: '\\' :: doubleBackslash rest
    else c :: doubleBackslash rest

/-- The `re.sub` replacement template `f"\\1{new_data_json_escaped};"`. -/
def mkTemplate (data : List Entry) : List Char :=
  '\\' :: '1' :: (doubleBackslash (jsonDumps data) ++ [';'])

/-- Python `re.sub` template expansion: `\1` is group 1, `\\` a literal
backslash.  (Other escapes cannot occur in the templates the code builds,
because every backslash of the payload is doubled.) -/
def templateExpand (g1 : List Char) : List Char → List Char
  | [] => []
  | [c] => [c]
  | a :: b :: rest =>
    if a = '\\' then
      if b = '1' then g1 ++ templateExpand g1 rest
      else if b = '\\' then '\\' :: templateExpand g1 rest
      else a :: b :: templateExpand g1 rest
    else a :: templateExpand g1 (b :: rest)

/-- Literal matcher; returns the rest after the literal. -/
def matchLit : List Char → List Char → Option (List Char)
  | [], cs => some cs
  | _ :: _, [] => none
  | p :: ps, c :: cs => if c = p then matchLit ps cs else none

/-- Match group 1 of the injection pattern, `(const\s+data\s*=\s*)`, at the
head of the input; returns the text after it. -/
def matchG1rest (cs : List Char) : Option (List Char) :=
  match matchLit "const".data cs with
  | none => none
  | some r1 =>
    match r1 with
    | [] => none
    | c :: r1t =>
      if isSpace c then
        match matchLit "data".data (r1t.dropWhile isSpace) with
        | none => none
        | some r2 =>
          match r2.dropWhile isSpace with
          | [] => none
          | e :: r3 => if e = '=' then some (r3.dropWhile isSpace) else none
      else none

/-- Index of the first `];` pair (how the non-greedy `[\s\S]*?\];` ends). -/
def findClose : List Char → Option Nat
  | [] => none
  | a :: rest =>
    if a = ']' ∧ rest.head? = some ';' then some 0
    else (findClose rest).map (· + 1)

/-- Match `(const\s+data\s*=\s*)\[[\s\S]*?\];` at the head of the input;
returns (group 1, rest after the whole match). -/
def matchData (cs : List Char) : Option (List Char × List Char) :=
  match matchG1rest cs with
  | none => none
  | some r =>
    match r with
    | [] => none
    | c :: r2 =>
      if c = '[' then
        match findClose r2 with
        | none => none
        | some k => some (cs.take (cs.length - r2.length - 1), r2.drop (k + 2))
      else none

/-- Fuel-driven scan for the injection substitution. -/
def dataSubF (t : List Char) : Nat → List Char → List Char
  | 0, _ => []
  | n + 1, cs =>
    match matchData cs with
    | some (g1, a) => templateExpand g1 t ++ dataSubF t n a
    | none =>
      match cs with
      | [] => []
      | c :: rest => c :: dataSubF t n rest

/-- `re.sub(pattern, f"\\1{escaped};", html)`: global replacement of the
injection pattern, scanning left to right and continuing after each match
end (in the original text, as `re.sub` does). -/
def dataSub (t : List Char) (cs : List Char) : List Char :=
  dataSubF t cs.length cs

/-- `re.search` for the injection pattern: does any match exist? -/
def hasDataMatch : List Char → Bool
  | [] => false
  | c :: rest => (matchData (c :: rest)).isSome || hasDataMatch rest

/-- `update_index_html`: if the pattern is absent, report and do not write
(`none`); otherwise write the substituted document. -/
def update_index_html (data : List Entry) (html : List Char) : Option (List Char) :=
  if hasDataMatch html then some (dataSub (mkTemplate data) html) else none

/-- The `__main__` block: extract, then inject only when at least one record
was extracted; `none` means the HTML file is never written. -/
def mainRun (readme : String) (html : List Char) : Option (List Char) :=
  let entries := parse_readme readme
  if entries.isEmpty then none
  else update_index_html entries html

/-! ### Length bounds for the scanners (each match consumes text) -/

theorem scanParen_length {cs : List Char} {g : List Char} {r : List Char}
    (h : scanParen cs = some (g, r)) : r.length < cs.length := by
  induction cs generalizing g r with
  | nil => simp [scanParen] at h
  | cons c rest ih =>
    simp only [scanParen] at h
    split at h
    · cases h; simp
    · split at h
      · cases h
      · cases hr : scanParen rest with
        | none => rw [hr] at h; cases h
        | some p =>
          obtain ⟨gg, rr⟩ := p
          rw [hr] at h
          cases h
          exact Nat.lt_trans (ih hr) (by simp)

theorem scanBody_length {cs : List Char} {g1 g2 r : List Char}
    (h : scanBody cs = some (g1, g2, r)) : r.length < cs.length := by
  induction cs generalizing g1 g2 r with
  | nil => simp [scanBody] at h
  | cons c rest ih =>
    simp only [scanBody] at h
    split at h
    · cases h
    · split at h
      · cases hp : scanParen rest.tail with
        | none =>
          rw [hp] at h
          cases hb : scanBody rest with
          | none => rw [hb] at h; cases h
          | some p =>
            obtain ⟨a1, a2, a3⟩ := p
            rw [hb] at h
            cases h
            exact Nat.lt_trans (ih hb) (by simp)
        | some p =>
          obtain ⟨gg, rr⟩ := p
          rw [hp] at h
          cases h
          have h1 := scanParen_length hp
          have h2 : rest.tail.length ≤ rest.length := by
            rw [List.length_tail]; omega
          simp only [List.length_cons]
          omega
      · cases hb : scanBody rest with
        | none => rw [hb] at h; cases h
        | some p =>
          obtain ⟨a1, a2, a3⟩ := p
          rw [hb] at h
          cases h
          exact Nat.lt_trans (ih hb) (by simp)

theorem matchLinkAt_length {cs : List Char} {g1 g2 r : List Char}
    (h : matchLinkAt cs = some (g1, g2, r)) : r.length < cs.length := by
  cases cs with
  | nil => simp [matchLinkAt] at h
  | cons c rest =>
    simp only [matchLinkAt] at h
    split at h
    · have := scanBody_length h
      simp only [List.length_cons]
      omega
    · cases h

theorem scanStar_length {cs : List Char} {g r : List Char}
    (h : scanStar cs = some (g, r)) : r.length < cs.length := by
  induction cs generalizing g r with
  | nil => simp [scanStar] at h
  | cons c rest ih =>
    simp only [scanStar] at h
    split at h
    · cases h
      have : rest.tail.length ≤ rest.length := by cases rest <;> simp
      simp only [List.length_cons]
      omega
    · split at h
      · cases h
      · cases hr : scanStar rest with
        | none => rw [hr] at h; cases h
        | some p =>
          obtain ⟨gg, rr⟩ := p
          rw [hr] at h
          cases h
          exact Nat.lt_trans (ih hr) (by simp)

theorem matchBoldAt_length {cs : List Char} {g r : List Char}
    (h : matchBoldAt cs = some (g, r)) : r.length < cs.length := by
  cases cs with
  | nil => simp [matchBoldAt] at h
  | cons a rest =>
    simp only [matchBoldAt] at h
    split at h
    · have h1 := scanStar_length h
      have h2 : rest.tail.length ≤ rest.length := by
        rw [List.length_tail]; omega
      simp only [List.length_cons]
      omega
    · cases h

theorem matchLit_length {p cs r : List Char}
    (h : matchLit p cs = some r) : p.length + r.length = cs.length := by
  induction p generalizing cs with
  | nil =>
    simp only [matchLit, Option.some.injEq] at h
    simp [← h]
  | cons a ps ih =>
    cases cs with
    | nil => simp [matchLit] at h
    | cons c cs2 =>
      simp only [matchLit] at h
      split at h
      · have := ih h
        simp only [List.length_cons]
        omega
      · cases h

theorem dropWhile_length_le (p : Char → Bool) (l : List Char) :
    (l.dropWhile p).length ≤ l.length := by
  induction l with
  | nil => simp
  | cons c rest ih =>
    rw [List.dropWhile_cons]
    split
    · simp only [List.length_cons]; omega
    · simp

theorem matchG1rest_length {cs r : List Char}
    (h : matchG1rest cs = some r) : r.length < cs.length := by
  simp only [matchG1rest] at h
  cases h1 : matchLit "const".data cs with
  | none => simp only [h1] at h; cases h
  | some r1 =>
    simp only [h1] at h
    have hr1 : r1.length < cs.length := by
      have := matchLit_length h1
      simp at this
      omega
    cases r1 with
    | nil => cases h
    | cons c r1t =>
      simp only at h
      split at h
      · cases h2 : matchLit "data".data (r1t.dropWhile isSpace) with
        | none => simp only [h2] at h; cases h
        | some r2 =>
          simp only [h2] at h
          have hr2 : r2.length ≤ r1t.length := by
            have ha := matchLit_length h2
            have hb : (r1t.dropWhile isSpace).length ≤ r1t.length :=
              dropWhile_length_le _ _
            simp at ha
            omega
          cases h3 : r2.dropWhile isSpace with
          | nil => simp only [h3] at h; cases h
          | cons e r3 =>
            simp only [h3] at h
            have hr3 : r3.length < r2.length := by
              have hc : (r2.dropWhile isSpace).length ≤ r2.length :=
                dropWhile_length_le _ _
              rw [h3] at hc
              simp only [List.length_cons] at hc
              omega
            split at h
            · cases h
              have : (r3.dropWhile isSpace).length ≤ r3.length :=
                dropWhile_length_le _ _
              simp only [List.length_cons] at hr1
              omega
            · cases h
      · cases h

theorem matchData_after_lt {cs : List Char} {g1 a : List Char}
    (h : matchData cs = some (g1, a)) : a.length < cs.length := by
  simp only [matchData] at h
  cases h1 : matchG1rest cs with
  | none => simp only [h1] at h; cases h
  | some r =>
    simp only [h1] at h
    have hr : r.length < cs.length := matchG1rest_length h1
    cases r with
    | nil => cases h
    | cons c r2 =>
      simp only at h
      split at h
      · cases h2 : findClose r2 with
        | none => simp only [h2] at h; cases h
        | some k =>
          simp only [h2, Option.some.injEq, Prod.mk.injEq] at h
          have hlen : (r2.drop (k + 2)).length ≤ r2.length := by
            rw [List.length_drop]
            omega
          simp only [List.length_cons] at hr
          rw [← h.2]
          omega
      · cases h

/-! ### The fuel of the scanners is irrelevant once it covers the input -/

theorem linkSubF_congr : ∀ {n m : Nat} {cs : List Char}, cs.length ≤ n → cs.length ≤ m →
    linkSubF n cs = linkSubF m cs := by
  intro n
  induction n with
  | zero =>
    intro m cs hn hm
    have hcs : cs = [] := List.eq_nil_of_length_eq_zero (by omega)
    subst hcs
    cases m <;> simp [linkSubF, matchLinkAt]
  | succ n ih =>
    intro m cs hn hm
    cases m with
    | zero =>
      have hcs : cs = [] := List.eq_nil_of_length_eq_zero (by omega)
      subst hcs
      simp [linkSubF, matchLinkAt]
    | succ m =>
      cases hma : matchLinkAt cs with
      | some p =>
        obtain ⟨g1, g2, r⟩ := p
        have hr := matchLinkAt_length hma
        simp only [linkSubF, hma]
        rw [ih (show r.length ≤ n by omega) (show r.length ≤ m by omega)]
      | none =>
        cases cs with
        | nil => rfl
        | cons c rest =>
          simp only [List.length_cons] at hn hm
          simp only [linkSubF, hma]
          rw [ih (show rest.length ≤ n by omega) (show rest.length ≤ m by omega)]

theorem boldSubF_congr : ∀ {n m : Nat} {cs : List Char}, cs.length ≤ n → cs.length ≤ m →
    boldSubF n cs = boldSubF m cs := by
  intro n
  induction n with
  | zero =>
    intro m cs hn hm
    have hcs : cs = [] := List.eq_nil_of_length_eq_zero (by omega)
    subst hcs
    cases m <;> simp [boldSubF, matchBoldAt]
  | succ n ih =>
    intro m cs hn hm
    cases m with
    | zero =>
      have hcs : cs = [] := List.eq_nil_of_length_eq_zero (by omega)
      subst hcs
      simp [boldSubF, matchBoldAt]
    | succ m =>
      cases hma : matchBoldAt cs with
      | some p =>
        obtain ⟨g, r⟩ := p
        have hr := matchBoldAt_length hma
        simp only [boldSubF, hma]
        rw [ih (show r.length ≤ n by omega) (show r.length ≤ m by omega)]
      | none =>
        cases cs with
        | nil => rfl
        | cons c rest =>
          simp only [List.length_cons] at hn hm
          simp only [boldSubF, hma]
          rw [ih (show rest.length ≤ n by omega) (show rest.length ≤ m by omega)]

theorem dataSubF_congr {t : List Char} : ∀ {n m : Nat} {cs : List Char},
    cs.length ≤ n → cs.length ≤ m → dataSubF t n cs = dataSubF t m cs := by
  intro n
  induction n with
  | zero =>
    intro m cs hn hm
    have hcs : cs = [] := List.eq_nil_of_length_eq_zero (by omega)
    subst hcs
    cases m <;> simp [dataSubF, matchData, matchG1rest, matchLit]
  | succ n ih =>
    intro m cs hn hm
    cases m with
    | zero =>
      have hcs : cs = [] := List.eq_nil_of_length_eq_zero (by omega)
      subst hcs
      simp [dataSubF, matchData, matchG1rest, matchLit]
    | succ m =>
      cases hma : matchData cs with
      | some p =>
        obtain ⟨g1, a⟩ := p
        have hr := matchData_after_lt hma
        simp only [dataSubF, hma]
        rw [ih (show a.length ≤ n by omega) (show a.length ≤ m by omega)]
      | none =>
        cases cs with
        | nil => rfl
        | cons c rest =>
          simp only [List.length_cons] at hn hm
          simp only [dataSubF, hma]
          rw [ih (show rest.length ≤ n by omega) (show rest.length ≤ m by omega)]

/-! ### One-step equations of the three substitution scans -/

theorem linkSub_match {cs g1 g2 r : List Char} (h : matchLinkAt cs = some (g1, g2, r)) :
    linkSub cs =
      "<a href=\"".data ++ g2 ++ "\">".data ++ g1 ++ "</a>".data ++ linkSub r := by
  cases cs with
  | nil => simp [matchLinkAt] at h
  | cons c rest =>
    have hr := matchLinkAt_length h
    simp only [List.length_cons] at hr
    unfold linkSub
    simp only [List.length_cons, linkSubF, h]
    rw [linkSubF_congr (show r.length ≤ rest.length by omega) (Nat.le_refl _)]

theorem linkSub_cons_nomatch {c : Char} {rest : List Char}
    (h : matchLinkAt (c :: rest) = none) :
    linkSub (c :: rest) = c :: linkSub rest := by
  unfold linkSub
  simp only [List.length_cons, linkSubF, h]

theorem boldSub_match {cs g r : List Char} (h : matchBoldAt cs = some (g, r)) :
    boldSub cs = "<strong>".data ++ g ++ "</strong>".data ++ boldSub r := by
  cases cs with
  | nil => simp [matchBoldAt] at h
  | cons c rest =>
    have hr := matchBoldAt_length h
    simp only [List.length_cons] at hr
    unfold boldSub
    simp only [List.length_cons, boldSubF, h]
    rw [boldSubF_congr (show r.length ≤ rest.length by omega) (Nat.le_refl _)]

theorem boldSub_cons_nomatch {c : Char} {rest : List Char}
    (h : matchBoldAt (c :: rest) = none) :
    boldSub (c :: rest) = c :: boldSub rest := by
  unfold boldSub
  simp only [List.length_cons, boldSubF, h]

theorem dataSub_match {t cs g1 a : List Char} (h : matchData cs = some (g1, a)) :
    dataSub t cs = templateExpand g1 t ++ dataSub t a := by
  cases cs with
  | nil => simp [matchData, matchG1rest, matchLit] at h
  | cons c rest =>
    have hr := matchData_after_lt h
    simp only [List.length_cons] at hr
    unfold dataSub
    simp only [List.length_cons, dataSubF, h]
    rw [dataSubF_congr (show a.length ≤ rest.length by omega) (Nat.le_refl _)]

theorem dataSub_nil {t : List Char} : dataSub t [] = [] := rfl

theorem dataSub_cons_nomatch {t : List Char} {c : Char} {rest : List Char}
    (h : matchData (c :: rest) = none) :
    dataSub t (c :: rest) = c :: dataSub t rest := by
  unfold dataSub
  simp only [List.length_cons, dataSubF, h]

/-! ### Template expansion undoes the backslash doubling (heart of C3) -/

theorem templateExpand_db (g1 : List Char) :
    ∀ s t : List Char, templateExpand g1 (doubleBackslash s ++ t) = s ++ templateExpand g1 t := by
  intro s
  induction s with
  | nil => intro t; rfl
  | cons c cs ih =>
    intro t
    by_cases hc : c = '\\'
    · subst hc
      simp only [doubleBackslash, if_pos rfl, List.cons_append]
      simp [templateExpand, ih]
    · simp only [doubleBackslash, if_neg hc, List.cons_append]
      cases hz : doubleBackslash cs ++ t with
      | nil =>
        rcases List.append_eq_nil.mp hz with ⟨h1, h2⟩
        have hcs : cs = [] := by
          cases cs with
          | nil => rfl
          | cons d ds =>
            exfalso
            simp only [doubleBackslash] at h1
            split at h1 <;> cases h1
        subst hcs
        subst h2
        simp [templateExpand]
      | cons b rest =>
        simp only [templateExpand, if_neg hc]
        rw [← hz]
        simp [ih]

theorem templateExpand_mkTemplate (g1 : List Char) (data : List Entry) :
    templateExpand g1 (mkTemplate data) = g1 ++ (jsonDumps data ++ [';']) := by
  unfold mkTemplate
  simp only [templateExpand, if_pos rfl]
  rw [templateExpand_db]
  rfl

/-! ### Claim theorems: extractor -/

/-- README exercising the end-of-table boundary: a non-table line after the
first data row, followed by another table-like row. -/
def exC1 : String :=
  "| Time | Venue | Paper | Research Question/Idea | Method | Remark | Bib |\n| --- | --- | --- | --- | --- | --- | --- |\n| t1 | v1 | p1 | q1 | m1 | r1 | b1 |\nEnd of the table.\n| t2 | v2 | p2 | q2 | m2 | r2 | b2 |\n"

/-- C1: contrary to the claim, the extractor does NOT stop at a non-table
line: in `parse_readme` the `continue` on line 41 fires for every line not
starting with `|`, so the `break` on line 46 (guarded by the same condition)
is unreachable, and the table-like row after the non-table line is still
extracted.  On `exC1` the row `t2` appears in the output. -/
theorem C1_non_table_line_does_not_stop :
    (parse_readme exC1).map Entry.time = ["t1", "t2"] := by decide

/-- C5: when the header pattern does not occur in the README, extraction
returns the empty sequence and the main flow never writes the HTML file. -/
theorem C5_no_header_no_write (content : String) (html : List Char)
    (h : searchHeader content.data = none) :
    parse_readme content = [] ∧ mainRun content html = none := by
  have hp : parse_readme content = [] := by
    unfold parse_readme
    rw [h]
  refine ⟨hp, ?_⟩
  unfold mainRun
  rw [hp]
  rfl

/-- A README with no table header anywhere. -/
def exC5 : String := "# A readme with no table at all\nJust text, no header row.\n"

theorem C5_no_header_no_write_witness :
    searchHeader exC5.data = none ∧
    (parse_readme exC5 = [] ∧ mainRun exC5 "<p>const data = [1];</p>".data = none) :=
  ⟨by decide, C5_no_header_no_write exC5 "<p>const data = [1];</p>".data (by decide)⟩

/-- C6: a row line that starts with `|` but yields fewer than 6 trimmed cells
is silently discarded (`processLine` returns `none`) and the loop continues
with the remaining lines. -/
theorem C6_short_row_skipped (l : List Char) (ls : List (List Char))
    (h1 : (pyStrip l).head? = some '|') (h2 : (colsOf l).length < 6) :
    processLine l = none ∧ parseLines (l :: ls) = parseLines ls := by
  have hp : processLine l = none := by
    simp only [processLine, if_pos h1]
    rw [if_neg (show ¬ 6 ≤ (colsOf l).length by omega)]
  exact ⟨hp, by simp [parseLines, List.filterMap_cons, hp]⟩

/-- A five-cell row followed by a well-formed row. -/
def exC6row : List Char := "| t1 | v1 | p1 | q1 | m1 |".data

/-- The rest of the lines after the malformed row. -/
def exC6rest : List (List Char) := ["| t2 | v2 | p2 | q2 | m2 | r2 | b2 |".data]

theorem C6_short_row_skipped_witness :
    (pyStrip exC6row).head? = some '|' ∧ (colsOf exC6row).length < 6 ∧
    (processLine exC6row = none ∧
      parseLines (exC6row :: exC6rest) = parseLines exC6rest) :=
  ⟨by decide, by decide, C6_short_row_skipped exC6row exC6rest (by decide) (by decide)⟩

/-- C7: the paper field is exactly the third trimmed cell transformed by the
global link rewrite; `[Foo](http://x)` becomes the anchor, several links in a
cell are all rewritten, and text without `[` is left verbatim. -/
theorem C7_paper_link_rewrite :
    (∀ l e, processLine l = some e →
      e.paper = String.mk (linkSub ((colsOf l).getD 2 []))) ∧
    linkSub "[Foo](http://x)".data = "<a href=\"http://x\">Foo</a>".data ∧
    linkSub "see [A](u) and [B](v)!".data =
      "see <a href=\"u\">A</a> and <a href=\"v\">B</a>!".data ∧
    (∀ l, '[' ∉ l → linkSub l = l) := by
  refine ⟨?_, by decide, by decide, ?_⟩
  · intro l e he
    simp only [processLine] at he
    split at he
    · split at he
      · injection he with he2
        subst he2
        rfl
      · cases he
    · cases he
  · intro l hnotin
    induction l with
    | nil => rfl
    | cons c rest ih =>
      rw [List.mem_cons, not_or] at hnotin
      have hm : matchLinkAt (c :: rest) = none := by
        simp only [matchLinkAt]
        exact if_neg (fun hc => hnotin.1 hc.symm)
      rw [linkSub_cons_nomatch hm, ih hnotin.2]

/-- A row whose paper cell holds one Markdown link plus plain text. -/
def exC7line : List Char := "| t | v | [Foo](http://x) more | q | m | r |".data

/-- The record extracted from `exC7line`. -/
def exC7entry : Entry :=
  { time := "t", venue := "v", paper := "<a href=\"http://x\">Foo</a> more",
    question := "q", method := "m", remark := "r", bib := "" }

theorem C7_paper_link_rewrite_witness :
    processLine exC7line = some exC7entry ∧
    exC7entry.paper = String.mk (linkSub ((colsOf exC7line).getD 2 [])) ∧
    linkSub "plain text".data = "plain text".data :=
  ⟨by decide, C7_paper_link_rewrite.1 exC7line exC7entry (by decide),
    C7_paper_link_rewrite.2.2.2 "plain text".data (by decide)⟩

/-- C8: question and method are the bold-rewritten fourth and fifth cells;
time, venue, remark and bib are the raw (trimmed) cells with no rewrite. -/
theorem C8_bold_and_raw_fields :
    (∀ l e, processLine l = some e →
      e.question = String.mk (boldSub ((colsOf l).getD 3 [])) ∧
      e.method = String.mk (boldSub ((colsOf l).getD 4 [])) ∧
      e.time = String.mk ((colsOf l).getD 0 []) ∧
      e.venue = String.mk ((colsOf l).getD 1 []) ∧
      e.remark = String.mk ((colsOf l).getD 5 []) ∧
      e.bib = String.mk (if 6 < (colsOf l).length then (colsOf l).getD 6 [] else [])) ∧
    boldSub "**Bar**".data = "<strong>Bar</strong>".data ∧
    (∀ l, '*' ∉ l → boldSub l = l) := by
  refine ⟨?_, by decide, ?_⟩
  · intro l e he
    simp only [processLine] at he
    split at he
    · split at he
      · injection he with he2
        subst he2
        exact ⟨rfl, rfl, rfl, rfl, rfl, rfl⟩
      · cases he
    · cases he
  · intro l hnotin
    induction l with
    | nil => rfl
    | cons c rest ih =>
      rw [List.mem_cons, not_or] at hnotin
      have hm : matchBoldAt (c :: rest) = none := by
        simp only [matchBoldAt]
        exact if_neg (fun hc => hnotin.1 hc.1.symm)
      rw [boldSub_cons_nomatch hm, ih hnotin.2]

/-- A row with bold markup in the question and method cells and stars kept
verbatim elsewhere. -/
def exC8line : List Char := "| 2024 | **V** | p | a **Q** b | **M** | r **R** | b8 |".data

/-- The record extracted from `exC8line`: bold is rewritten only in question
and method. -/
def exC8entry : Entry :=
  { time := "2024", venue := "**V**", paper := "p",
    question := "a <strong>Q</strong> b", method := "<strong>M</strong>",
    remark := "r **R**", bib := "b8" }

theorem C8_bold_and_raw_fields_witness :
    processLine exC8line = some exC8entry ∧
    (exC8entry.question = String.mk (boldSub ((colsOf exC8line).getD 3 [])) ∧
      exC8entry.method = String.mk (boldSub ((colsOf exC8line).getD 4 [])) ∧
      exC8entry.time = String.mk ((colsOf exC8line).getD 0 []) ∧
      exC8entry.venue = String.mk ((colsOf exC8line).getD 1 []) ∧
      exC8entry.remark = String.mk ((colsOf exC8line).getD 5 []) ∧
      exC8entry.bib =
        String.mk (if 6 < (colsOf exC8line).length then (colsOf exC8line).getD 6 [] else [])) ∧
    boldSub "no stars".data = "no stars".data :=
  ⟨by decide, C8_bold_and_raw_fields.1 exC8line exC8entry (by decide),
    C8_bold_and_raw_fields.2.2 "no stars".data (by decide)⟩

/-- C9: a row with at least 6 cells always yields a record; with no seventh
cell its bib is the empty string, with one the bib is that raw cell. -/
theorem C9_bib_default (l : List Char)
    (h1 : (pyStrip l).head? = some '|') (h2 : 6 ≤ (colsOf l).length) :
    ∃ e, processLine l = some e ∧
      ((colsOf l).length = 6 → e.bib = "") ∧
      (6 < (colsOf l).length → e.bib = String.mk ((colsOf l).getD 6 [])) := by
  simp only [processLine, if_pos h1, if_pos h2]
  refine ⟨_, rfl, ?_, ?_⟩
  · intro h6
    show String.mk (if 6 < (colsOf l).length then (colsOf l).getD 6 [] else []) = ""
    rw [if_neg (show ¬ 6 < (colsOf l).length by omega)]
  · intro h7
    show String.mk (if 6 < (colsOf l).length then (colsOf l).getD 6 [] else []) =
      String.mk ((colsOf l).getD 6 [])
    rw [if_pos h7]

/-- A row with exactly six cells (no Bib column). -/
def exC9line : List Char := "| t | v | p | q | m | r |".data

theorem C9_bib_default_witness :
    (pyStrip exC9line).head? = some '|' ∧ 6 ≤ (colsOf exC9line).length ∧
    (∃ e, processLine exC9line = some e ∧
      ((colsOf exC9line).length = 6 → e.bib = "") ∧
      (6 < (colsOf exC9line).length → e.bib = String.mk ((colsOf exC9line).getD 6 []))) :=
  ⟨by decide, by decide, C9_bib_default exC9line (by decide) (by decide)⟩

/-! ### Claim theorems: injector, error path -/

/-- C4: when no `const data = [...];` statement occurs in the document,
`update_index_html` returns `none`: nothing is written and the document is
left untouched. -/
theorem C4_no_injection_point (data : List Entry) (html : List Char)
    (h : hasDataMatch html = false) :
    update_index_html data html = none := by
  simp [update_index_html, h]

/-- An HTML document without any `const data = [...]` statement. -/
def exC4html : List Char := "<html><script>var other = [1];</script></html>".data

theorem C4_no_injection_point_witness :
    hasDataMatch exC4html = false ∧ update_index_html [] exC4html = none :=
  ⟨by decide, C4_no_injection_point [] exC4html (by decide)⟩

/-! ### Characterizing the injection-pattern matcher -/

/-- Every character of `w` is Python whitespace. -/
def allSpaceList (w : List Char) : Prop := ∀ c ∈ w, isSpace c = true

/-- The list is empty or starts with a non-whitespace character (where the
greedy `\s*` scan stops). -/
def headNotSpace (r : List Char) : Prop := ∀ c, r.head? = some c → isSpace c = false

/-- The exact texts group 1 of the injection pattern can match:
`const`, whitespace, `data`, whitespace, `=`, whitespace. -/
def G1Shape (g : List Char) : Prop :=
  ∃ w1 w2 w3, g = "const".data ++ (w1 ++ ("data".data ++ (w2 ++ ('=' :: w3)))) ∧
    w1 ≠ [] ∧ allSpaceList w1 ∧ allSpaceList w2 ∧ allSpaceList w3

theorem matchLit_append (p r : List Char) : matchLit p (p ++ r) = some r := by
  induction p with
  | nil => rfl
  | cons a ps ih => simp [matchLit, ih]

theorem matchLit_eq_append {p cs r : List Char} (h : matchLit p cs = some r) :
    cs = p ++ r := by
  induction p generalizing cs with
  | nil =>
    simp only [matchLit, Option.some.injEq] at h
    simp [h]
  | cons a ps ih =>
    cases cs with
    | nil => simp [matchLit] at h
    | cons c cs2 =>
      simp only [matchLit] at h
      split at h
      · rename_i hceq
        rw [hceq, List.cons_append, ih h]
      · cases h

theorem dropWhile_split (p : Char → Bool) (l : List Char) :
    l = l.takeWhile p ++ l.dropWhile p := (List.takeWhile_append_dropWhile p l).symm

theorem dropWhile_head_not {p : Char → Bool} {l : List Char} {c : Char}
    (h : (l.dropWhile p).head? = some c) : p c = false := by
  induction l with
  | nil => simp [List.dropWhile] at h
  | cons a rest ih =>
    rw [List.dropWhile_cons] at h
    split at h
    · exact ih h
    · simp only [List.head?_cons, Option.some.injEq] at h
      subst h
      rename_i ha
      exact Bool.eq_false_iff.mpr ha

theorem dropWhile_append_stop {p : Char → Bool} {w X : List Char}
    (hw : ∀ c ∈ w, p c = true) (hX : ∀ c, X.head? = some c → p c = false) :
    (w ++ X).dropWhile p = X := by
  induction w with
  | nil =>
    cases X with
    | nil => rfl
    | cons x xs =>
      simp only [List.nil_append, List.dropWhile_cons]
      rw [hX x rfl]
      simp
  | cons a rest ih =>
    simp only [List.cons_append, List.dropWhile_cons]
    rw [hw a (List.mem_cons_self a rest)]
    simp only [if_true]
    exact ih (fun c hc => hw c (List.mem_cons_of_mem a hc))

theorem matchG1rest_of_shape {g r : List Char} (hg : G1Shape g) (hr : headNotSpace r) :
    matchG1rest (g ++ r) = some r := by
  obtain ⟨w1, w2, w3, rfl, hne, h1, h2, h3⟩ := hg
  obtain ⟨a, w1t, rfl⟩ := List.exists_cons_of_ne_nil hne
  have ha : isSpace a = true := h1 a (List.mem_cons_self a w1t)
  have hw1t : ∀ c ∈ w1t, isSpace c = true := fun c hc => h1 c (List.mem_cons_of_mem a hc)
  have e1 : List.dropWhile isSpace (w1t ++ ("data".data ++ (w2 ++ ('=' :: (w3 ++ r))))) =
      "data".data ++ (w2 ++ ('=' :: (w3 ++ r))) :=
    dropWhile_append_stop hw1t (fun c hc => by
      rw [show ("data".data ++ (w2 ++ ('=' :: (w3 ++ r)))).head? = some 'd' from rfl] at hc
      injection hc with hc2
      rw [← hc2]
      decide)
  have e2 : List.dropWhile isSpace (w2 ++ ('=' :: (w3 ++ r))) = '=' :: (w3 ++ r) :=
    dropWhile_append_stop h2 (fun c hc => by
      rw [show (('=' :: (w3 ++ r)) : List Char).head? = some '=' from rfl] at hc
      injection hc with hc2
      rw [← hc2]
      decide)
  have e3 : List.dropWhile isSpace (w3 ++ r) = r := dropWhile_append_stop h3 hr
  simp only [List.append_assoc, List.cons_append, List.nil_append] at e1 e2 e3 ⊢
  simp [matchG1rest, matchLit, ha, e1, e2, e3]

theorem matchG1rest_shape {u r : List Char} (h : matchG1rest u = some r) :
    ∃ g, u = g ++ r ∧ G1Shape g ∧ headNotSpace r := by
  simp only [matchG1rest] at h
  cases h1 : matchLit "const".data u with
  | none => simp only [h1] at h; cases h
  | some r1 =>
    simp only [h1] at h
    have hu : u = "const".data ++ r1 := matchLit_eq_append h1
    cases r1 with
    | nil => cases h
    | cons c r1t =>
      simp only at h
      split at h
      · rename_i hc
        cases h2 : matchLit "data".data (r1t.dropWhile isSpace) with
        | none => simp only [h2] at h; cases h
        | some r2 =>
          simp only [h2] at h
          have hr1t : r1t.dropWhile isSpace = "data".data ++ r2 := matchLit_eq_append h2
          cases h3 : r2.dropWhile isSpace with
          | nil => simp only [h3] at h; cases h
          | cons e r3 =>
            simp only [h3] at h
            split at h
            · rename_i he
              subst he
              injection h with h4
              refine ⟨"const".data ++ ((c :: r1t.takeWhile isSpace) ++
                  ("data".data ++ (r2.takeWhile isSpace ++ ('=' :: r3.takeWhile isSpace)))),
                ?_, ?_, ?_⟩
              · rw [hu, ← h4]
                have t1 : r1t = r1t.takeWhile isSpace ++ ("data".data ++ r2) := by
                  rw [← hr1t]
                  exact (List.takeWhile_append_dropWhile isSpace r1t).symm
                have t2 : r2 = r2.takeWhile isSpace ++ ('=' :: r3) := by
                  rw [← h3]
                  exact (List.takeWhile_append_dropWhile isSpace r2).symm
                have t3 : r3 = r3.takeWhile isSpace ++ r3.dropWhile isSpace :=
                  (List.takeWhile_append_dropWhile isSpace r3).symm
                conv_lhs => rw [t1, t2, t3]
                simp [List.append_assoc]
              · refine ⟨c :: r1t.takeWhile isSpace, r2.takeWhile isSpace,
                  r3.takeWhile isSpace, rfl, by simp, ?_, ?_, ?_⟩
                · intro x hx
                  rw [List.mem_cons] at hx
                  rcases hx with hx | hx
                  · rw [hx]; exact hc
                  · exact List.mem_takeWhile_imp hx
                · intro x hx
                  exact List.mem_takeWhile_imp hx
                · intro x hx
                  exact List.mem_takeWhile_imp hx
              · intro x hx
                rw [← h4] at hx
                exact dropWhile_head_not hx
            · cases h
      · cases h

theorem findClose_append_close : ∀ (b t : List Char), findClose b = none →
    findClose (b ++ ']' :: ';' :: t) = some b.length := by
  intro b
  induction b with
  | nil =>
    intro t _
    simp [findClose]
  | cons c b' ih =>
    intro t hb
    simp only [findClose] at hb
    split at hb
    · cases hb
    · rename_i hcd
      have hrec : findClose b' = none := by
        cases hfc : findClose b' with
        | none => rfl
        | some k => rw [hfc] at hb; cases hb
      have hcond : ¬(c = ']' ∧ (b' ++ ']' :: ';' :: t).head? = some ';') := by
        intro hx
        apply hcd
        refine ⟨hx.1, ?_⟩
        cases b' with
        | nil => simp at hx
        | cons e b'' =>
          simp only [List.cons_append, List.head?_cons, Option.some.injEq] at hx
          simp [hx.2]
      simp only [List.cons_append, findClose, List.append_eq]
      rw [if_neg hcond, ih t hrec]
      simp

theorem findClose_append_ne_none : ∀ (z t : List Char),
    findClose (z ++ ']' :: ';' :: t) ≠ none := by
  intro z
  induction z with
  | nil => intro t h; simp [findClose] at h
  | cons c z' ih =>
    intro t h
    simp only [List.cons_append, findClose, List.append_eq] at h
    split at h
    · cases h
    · cases hfc : findClose (z' ++ ']' :: ';' :: t) with
      | none => exact ih t hfc
      | some k => rw [hfc] at h; cases h

theorem findClose_some_decomp : ∀ {cs : List Char} {k : Nat}, findClose cs = some k →
    ∃ b t, cs = b ++ ']' :: ';' :: t ∧ b.length = k ∧ findClose b = none := by
  intro cs
  induction cs with
  | nil => intro k h; simp [findClose] at h
  | cons c rest ih =>
    intro k h
    simp only [findClose] at h
    split at h
    · rename_i hcd
      obtain ⟨hc, hd⟩ := hcd
      subst hc
      injection h with hk
      cases rest with
      | nil => simp at hd
      | cons e rest2 =>
        simp only [List.head?_cons, Option.some.injEq] at hd
        subst hd
        subst hk
        exact ⟨[], rest2, rfl, rfl, rfl⟩
    · rename_i hcd
      cases hfc : findClose rest with
      | none => rw [hfc] at h; cases h
      | some k' =>
        rw [hfc] at h
        simp only [Option.map_some', Option.some.injEq] at h
        obtain ⟨b', t, hcs, hlen, hnone⟩ := ih hfc
        have hcond : ¬(c = ']' ∧ b'.head? = some ';') := by
          intro hx
          apply hcd
          refine ⟨hx.1, ?_⟩
          rw [hcs]
          cases b' with
          | nil => simp at hx
          | cons e b'' =>
            simp only [List.head?_cons, Option.some.injEq] at hx
            simp [hx.2]
        refine ⟨c :: b', t, ?_, ?_, ?_⟩
        · rw [List.cons_append, ← hcs]
        · simp [List.length_cons, hlen, ← h]
        · simp only [findClose]
          rw [if_neg hcond, hnone]
          rfl

theorem matchData_nil : matchData [] = none := rfl

theorem G1Shape_ne_nil {g : List Char} (hg : G1Shape g) : g ≠ [] := by
  obtain ⟨w1, w2, w3, rfl, _, _, _, _⟩ := hg
  simp

theorem G1Shape_no_bracket {g : List Char} (hg : G1Shape g) : '[' ∉ g := by
  obtain ⟨w1, w2, w3, rfl, hne, h1, h2, h3⟩ := hg
  intro hmem
  simp only [List.mem_append, List.mem_cons] at hmem
  rcases hmem with h | h | h | h | h | h
  · exact absurd h (by decide)
  · exact absurd (h1 _ h) (by decide)
  · exact absurd h (by decide)
  · exact absurd (h2 _ h) (by decide)
  · exact absurd h (by decide)
  · exact absurd (h3 _ h) (by decide)

/-- Running the whole injection pattern over a text of the matched shape. -/
theorem matchData_of_shape {g1 body a : List Char} (hg : G1Shape g1)
    (hb : findClose body = none) :
    matchData (g1 ++ ('[' :: (body ++ ']' :: ';' :: a))) = some (g1, a) := by
  have hns : headNotSpace ('[' :: (body ++ ']' :: ';' :: a)) := by
    intro c hc
    simp only [List.head?_cons, Option.some.injEq] at hc
    rw [← hc]
    decide
  have hm := matchG1rest_of_shape hg hns
  simp only [matchData, hm, if_true]
  rw [findClose_append_close body a hb]
  have hlen : (g1 ++ ('[' :: (body ++ ']' :: ';' :: a))).length -
      (body ++ ']' :: ';' :: a).length - 1 = g1.length := by
    simp [List.length_append]
    omega
  rw [hlen]
  rw [show (g1 ++ ('[' :: (body ++ ']' :: ';' :: a))).take g1.length = g1 from
    List.take_left g1 _]
  show some (g1, (body ++ ']' :: ';' :: a).drop (body.length + 2)) = some (g1, a)
  rw [show (body ++ ']' :: ';' :: a).drop (body.length + 2) = a from by
    rw [← List.drop_drop, List.drop_left]
    rfl]

/-- Decomposing a successful match of the injection pattern. -/
theorem matchData_decomp {u g1 a : List Char} (h : matchData u = some (g1, a)) :
    ∃ body, u = g1 ++ ('[' :: (body ++ ']' :: ';' :: a)) ∧ G1Shape g1 ∧
      findClose body = none := by
  simp only [matchData] at h
  cases h1 : matchG1rest u with
  | none => simp only [h1] at h; cases h
  | some r =>
    simp only [h1] at h
    cases r with
    | nil => cases h
    | cons c r2 =>
      simp only at h
      split at h
      · rename_i hc
        subst hc
        cases h2 : findClose r2 with
        | none => simp only [h2] at h; cases h
        | some k =>
          simp only [h2, Option.some.injEq, Prod.mk.injEq] at h
          obtain ⟨g, hu, hshape, hns⟩ := matchG1rest_shape h1
          obtain ⟨b, t, hr2, hlen, hnone⟩ := findClose_some_decomp h2
          have hg1 : g1 = g := by
            rw [← h.1, hu]
            have he : (g ++ ('[' :: r2)).length - r2.length - 1 = g.length := by
              simp [List.length_append]
              omega
            rw [he]
            exact List.take_left g _
          have ha : a = t := by
            rw [← h.2, hr2, ← hlen]
            rw [← List.drop_drop, List.drop_left]
            rfl
          refine ⟨b, ?_, ?_, hnone⟩
          · rw [hu, hr2, hg1, ha]
          · rw [hg1]
            exact hshape
      · cases h

/-- Whether a failed match at a position can depend on text after a `];`
terminator: it cannot.  If the pattern fails at the start of `w ++ x` where
`w` contains a `[` and `x` ends in a `];`-terminated block, it also fails
when `x` is replaced by another such block. -/
theorem matchData_none_transfer {w b1 t1 b2 t2 : List Char}
    (hw : '[' ∈ w)
    (h1 : matchData (w ++ (b1 ++ ']' :: ';' :: t1)) = none) :
    matchData (w ++ (b2 ++ ']' :: ';' :: t2)) = none := by
  cases hm : matchData (w ++ (b2 ++ ']' :: ';' :: t2)) with
  | none => rfl
  | some p =>
    exfalso
    obtain ⟨g, a⟩ := p
    obtain ⟨body, heq, hshape, hfc⟩ := matchData_decomp hm
    have hnb : '[' ∉ g := G1Shape_no_bracket hshape
    rcases List.append_eq_append_iff.mp heq with ⟨k, hg, hk⟩ | ⟨k, hwk, hk⟩
    · exact hnb (hg ▸ List.mem_append.mpr (Or.inl hw))
    · cases k with
      | nil =>
        simp only [List.append_nil] at hwk
        exact hnb (hwk ▸ hw)
      | cons c k' =>
        rw [List.cons_append] at hk
        injection hk with hc hk2
        have hc2 := hc.symm
        subst hc2
        subst hwk
        have hns : headNotSpace ('[' :: (k' ++ (b1 ++ ']' :: ';' :: t1))) := by
          intro x hx
          simp only [List.head?_cons, Option.some.injEq] at hx
          rw [← hx]
          decide
        have hg1 := matchG1rest_of_shape hshape hns
        have hfind : findClose (k' ++ (b1 ++ ']' :: ';' :: t1)) ≠ none := by
          rw [show k' ++ (b1 ++ ']' :: ';' :: t1) = (k' ++ b1) ++ ']' :: ';' :: t1 from
            (List.append_assoc k' b1 _).symm]
          exact findClose_append_ne_none (k' ++ b1) t1
        have heval : matchData (g ++ ('[' :: (k' ++ (b1 ++ ']' :: ';' :: t1)))) ≠ none := by
          simp only [matchData, hg1, if_true]
          cases hf : findClose (k' ++ (b1 ++ ']' :: ';' :: t1)) with
          | none => exact absurd hf hfind
          | some k2 => simp
        apply heval
        rw [show g ++ ('[' :: (k' ++ (b1 ++ ']' :: ';' :: t1))) =
          (g ++ ('[' :: k')) ++ (b1 ++ ']' :: ';' :: t1) from by simp]
        exact h1

/-- No suffix of `w` (continuing into `v`) starts a match of the injection
pattern.  This is the scanning invariant of `re.sub`: positions strictly
before a match never themselves match. -/
def allSuffixNoMatch : List Char → List Char → Bool
  | [], _ => true
  | c :: rest, v => (matchData (c :: (rest ++ v))).isNone && allSuffixNoMatch rest v

theorem allSuffixNoMatch_swap : ∀ (w g b1 t1 b2 t2 : List Char),
    allSuffixNoMatch w (g ++ ('[' :: (b1 ++ ']' :: ';' :: t1))) = true →
    allSuffixNoMatch w (g ++ ('[' :: (b2 ++ ']' :: ';' :: t2))) = true := by
  intro w
  induction w with
  | nil => intro g b1 t1 b2 t2 _; rfl
  | cons c rest ih =>
    intro g b1 t1 b2 t2 h
    simp only [allSuffixNoMatch, Bool.and_eq_true, Option.isNone_iff_eq_none] at h ⊢
    obtain ⟨h1, h2⟩ := h
    refine ⟨?_, ih g b1 t1 b2 t2 h2⟩
    have e1 : c :: (rest ++ (g ++ ('[' :: (b1 ++ ']' :: ';' :: t1)))) =
        ((c :: rest) ++ (g ++ ['['])) ++ (b1 ++ ']' :: ';' :: t1) := by simp
    have e2 : c :: (rest ++ (g ++ ('[' :: (b2 ++ ']' :: ';' :: t2)))) =
        ((c :: rest) ++ (g ++ ['['])) ++ (b2 ++ ']' :: ';' :: t2) := by simp
    rw [e2]
    refine matchData_none_transfer ?_ (by rw [← e1]; exact h1)
    simp

theorem allSuffixNoMatch_snoc : ∀ (w : List Char) (d : Char) (v : List Char),
    allSuffixNoMatch w (d :: v) = true → matchData (d :: v) = none →
    allSuffixNoMatch (w ++ [d]) v = true := by
  intro w
  induction w with
  | nil =>
    intro d v _ hm
    simp only [List.nil_append, allSuffixNoMatch, Bool.and_eq_true, Option.isNone_iff_eq_none]
    exact ⟨by simpa using hm, trivial⟩
  | cons c rest ih =>
    intro d v h hm
    simp only [allSuffixNoMatch, Bool.and_eq_true, Option.isNone_iff_eq_none] at h
    obtain ⟨h1, h2⟩ := h
    simp only [List.cons_append, allSuffixNoMatch, Bool.and_eq_true,
      Option.isNone_iff_eq_none, List.append_eq]
    refine ⟨?_, ih d v h2 hm⟩
    rw [show (rest ++ [d]) ++ v = rest ++ (d :: v) from by simp]
    exact h1

theorem allSuffixNoMatch_unsnoc : ∀ (w : List Char) (d : Char) (v : List Char),
    allSuffixNoMatch (w ++ [d]) v = true → allSuffixNoMatch w (d :: v) = true := by
  intro w
  induction w with
  | nil => intro d v _; rfl
  | cons c rest ih =>
    intro d v h
    simp only [List.cons_append, allSuffixNoMatch, Bool.and_eq_true,
      Option.isNone_iff_eq_none, List.append_eq] at h
    obtain ⟨h1, h2⟩ := h
    simp only [allSuffixNoMatch, Bool.and_eq_true, Option.isNone_iff_eq_none]
    refine ⟨?_, ih d v h2⟩
    rw [show rest ++ (d :: v) = (rest ++ [d]) ++ v from by simp]
    exact h1

/-- The scanning invariant survives the substitution: if no suffix of `w`
matches into `v`, none matches into the substituted `v` either. -/
theorem allSuffixNoMatch_dataSub (data : List Entry) :
    ∀ (v w : List Char), allSuffixNoMatch w v = true →
      allSuffixNoMatch w (dataSub (mkTemplate data) v) = true := by
  intro v
  induction v with
  | nil => intro w h; exact h
  | cons d v' ih =>
    cases hm : matchData (d :: v') with
    | some p =>
      obtain ⟨g1, a⟩ := p
      intro w h
      obtain ⟨body, heq, hshape, hfc⟩ := matchData_decomp hm
      rw [dataSub_match hm, templateExpand_mkTemplate]
      have e : g1 ++ ((jsonDumps data ++ [';']) ++ dataSub (mkTemplate data) a) =
          g1 ++ ('[' :: (jsonInterior data ++ ']' :: ';' :: dataSub (mkTemplate data) a)) := by
        simp [jsonDumps]
      rw [show g1 ++ (jsonDumps data ++ [';']) ++ dataSub (mkTemplate data) a =
        g1 ++ ((jsonDumps data ++ [';']) ++ dataSub (mkTemplate data) a) from by simp, e]
      rw [heq] at h
      exact allSuffixNoMatch_swap w g1 body a (jsonInterior data)
        (dataSub (mkTemplate data) a) h
    | none =>
      intro w h
      rw [dataSub_cons_nomatch hm]
      exact allSuffixNoMatch_unsnoc w d _
        (ih (w ++ [d]) (allSuffixNoMatch_snoc w d v' h hm))

/-- A position that does not start a match still does not after the rest of
the text has been substituted. -/
theorem matchData_none_dataSub (data : List Entry) {c : Char} {v : List Char}
    (h : matchData (c :: v) = none) :
    matchData (c :: dataSub (mkTemplate data) v) = none := by
  have h0 : allSuffixNoMatch [c] v = true := by
    simp [allSuffixNoMatch, h]
  have h1 := allSuffixNoMatch_dataSub data v [c] h0
  simp only [allSuffixNoMatch, List.nil_append, Bool.and_eq_true,
    Option.isNone_iff_eq_none] at h1
  exact h1.1

/-- When no record field contains the two-character sequence `];`, the
serialized JSON contains `];` only at its very end, and re-substituting an
already-substituted document changes nothing. -/
theorem dataSub_idem (data : List Entry) (hI : findClose (jsonInterior data) = none) :
    ∀ (v : List Char), dataSub (mkTemplate data) (dataSub (mkTemplate data) v) =
      dataSub (mkTemplate data) v := by
  have main : ∀ (n : Nat) (v : List Char), v.length ≤ n →
      dataSub (mkTemplate data) (dataSub (mkTemplate data) v) =
        dataSub (mkTemplate data) v := by
    intro n
    induction n with
    | zero =>
      intro v hv
      have hnil : v = [] := List.eq_nil_of_length_eq_zero (by omega)
      subst hnil
      rfl
    | succ n ih =>
      intro v hv
      cases hm : matchData v with
      | some p =>
        obtain ⟨g1, a⟩ := p
        obtain ⟨body, heq, hshape, hfc⟩ := matchData_decomp hm
        have hlt := matchData_after_lt hm
        rw [dataSub_match hm, templateExpand_mkTemplate]
        have e : g1 ++ (jsonDumps data ++ [';']) ++ dataSub (mkTemplate data) a =
            g1 ++ ('[' :: (jsonInterior data ++ ']' :: ';' :: dataSub (mkTemplate data) a)) := by
          simp [jsonDumps]
        rw [e]
        have hm2 : matchData (g1 ++ ('[' :: (jsonInterior data ++ ']' :: ';' ::
            dataSub (mkTemplate data) a))) = some (g1, dataSub (mkTemplate data) a) :=
          matchData_of_shape hshape hI
        rw [dataSub_match hm2, templateExpand_mkTemplate]
        rw [ih a (by omega)]
        exact e
      | none =>
        cases v with
        | nil => rfl
        | cons d v' =>
          rw [dataSub_cons_nomatch hm]
          rw [dataSub_cons_nomatch (matchData_none_dataSub data hm)]
          simp only [List.length_cons] at hv
          rw [ih v' (by omega)]
  intro v
  exact main v.length v (Nat.le_refl _)

theorem hasDataMatch_of_matchData {u : List Char} {p : List Char × List Char}
    (h : matchData u = some p) : hasDataMatch u = true := by
  cases u with
  | nil => rw [matchData_nil] at h; cases h
  | cons c rest => simp [hasDataMatch, h]

theorem hasDataMatch_dataSub (data : List Entry)
    (hI : findClose (jsonInterior data) = none) :
    ∀ (v : List Char), hasDataMatch v = true →
      hasDataMatch (dataSub (mkTemplate data) v) = true := by
  intro v
  induction v with
  | nil => intro h; simp [hasDataMatch] at h
  | cons d v' ih =>
    intro h
    cases hm : matchData (d :: v') with
    | some p =>
      obtain ⟨g1, a⟩ := p
      obtain ⟨body, heq, hshape, hfc⟩ := matchData_decomp hm
      rw [dataSub_match hm, templateExpand_mkTemplate]
      have e : g1 ++ (jsonDumps data ++ [';']) ++ dataSub (mkTemplate data) a =
          g1 ++ ('[' :: (jsonInterior data ++ ']' :: ';' :: dataSub (mkTemplate data) a)) := by
        simp [jsonDumps]
      rw [e]
      exact hasDataMatch_of_matchData (matchData_of_shape hshape hI)
    | none =>
      rw [dataSub_cons_nomatch hm]
      simp only [hasDataMatch, hm, Option.isSome_none, Bool.false_or] at h
      simp only [hasDataMatch, Bool.or_eq_true]
      exact Or.inr (ih h)

/-- C2 (amended): provided no serialized field contains the two-character
sequence `];` (so the JSON's only `];` is its final bracket-semicolon),
injecting the same records into the first run's output writes the document
back unchanged. -/
theorem C2_inject_idempotent (data : List Entry) (html out : List Char)
    (hI : findClose (jsonInterior data) = none)
    (h : update_index_html data html = some out) :
    update_index_html data out = some out := by
  unfold update_index_html at h ⊢
  cases hs : hasDataMatch html with
  | false => rw [hs] at h; simp at h
  | true =>
    rw [hs] at h
    simp only [if_true, Option.some.injEq] at h
    subst h
    rw [if_pos (hasDataMatch_dataSub data hI html hs)]
    rw [dataSub_idem data hI html]

/-- Records for the C2 idempotence witness (no field contains `];`). -/
def w2data : List Entry :=
  [{ time := "2024", venue := "V", paper := "P", question := "Q", method := "M",
     remark := "R", bib := "B" }]

/-- HTML document for the C2 idempotence witness. -/
def w2html : List Char := "<script>\nconst data = [\n  1\n];\n</script>".data

/-- The first run's output for the C2 idempotence witness. -/
def w2out : List Char := dataSub (mkTemplate w2data) w2html

theorem C2_inject_idempotent_witness :
    findClose (jsonInterior w2data) = none ∧
    update_index_html w2data w2html = some w2out ∧
    update_index_html w2data w2out = some w2out :=
  ⟨by decide, by decide,
    C2_inject_idempotent w2data w2html w2out (by decide) (by decide)⟩

/-- Records for the C2 counterexample: the remark field contains `];`. -/
def cexData : List Entry :=
  [{ time := "", venue := "", paper := "", question := "", method := "",
     remark := "a];b", bib := "" }]

/-- HTML document for the C2 counterexample. -/
def cexHtml : List Char := "const data = [0];".data

/-- First-run output on the counterexample. -/
def cexOut1 : List Char := dataSub (mkTemplate cexData) cexHtml

/-- Second-run output on the counterexample. -/
def cexOut2 : List Char := dataSub (mkTemplate cexData) cexOut1

/-- C2 counterexample: with a record field containing `];`, the second run
matches up to the `];` inside the injected JSON string literal, so it does
not reproduce the first run's output: the document keeps changing. -/
theorem C2_idempotence_counterexample :
    update_index_html cexData cexHtml = some cexOut1 ∧
    update_index_html cexData cexOut1 = some cexOut2 ∧
    cexOut2 ≠ cexOut1 := by
  refine ⟨by decide, by decide, by decide⟩

/-- C3: the injector builds its substitution template from the serialized
JSON with every backslash doubled, and the `re.sub` template expansion turns
the doubled backslashes back into single ones, so every replaced region is
exactly group 1 followed by the serialized JSON verbatim and `;`. -/
theorem C3_backslash_doubling (data : List Entry) :
    mkTemplate data = '\\' :: '1' :: (doubleBackslash (jsonDumps data) ++ [';']) ∧
    (∀ g1 : List Char, templateExpand g1 (mkTemplate data) =
      g1 ++ (jsonDumps data ++ [';'])) ∧
    (∀ u g1 a : List Char, matchData u = some (g1, a) →
      dataSub (mkTemplate data) u =
        g1 ++ ((jsonDumps data ++ [';']) ++ dataSub (mkTemplate data) a)) := by
  refine ⟨rfl, fun g1 => templateExpand_mkTemplate g1 data, ?_⟩
  intro u g1 a h
  rw [dataSub_match h, templateExpand_mkTemplate]
  simp [List.append_assoc]

/-- Records for the C3 witness. -/
def w3data : List Entry :=
  [{ time := "t\\x", venue := "", paper := "", question := "", method := "",
     remark := "", bib := "" }]

/-- An HTML document with one injection point, for the C3 witness. -/
def w3html : List Char := "const data = [9];".data

theorem C3_backslash_doubling_witness :
    matchData w3html = some ("const data = ".data, []) ∧
    dataSub (mkTemplate w3data) w3html =
      "const data = ".data ++
        ((jsonDumps w3data ++ [';']) ++ dataSub (mkTemplate w3data) []) :=
  ⟨by decide,
    (C3_backslash_doubling w3data).2.2 w3html "const data = ".data [] (by decide)⟩

/-! ### C10: every occurrence is replaced -/

instance instDecidableAllSpaceList (w : List Char) : Decidable (allSpaceList w) :=
  List.decidableBAll (fun c => isSpace c = true) w

theorem dataSub_append_nomatch (t : List Char) : ∀ (u v : List Char),
    allSuffixNoMatch u v = true → dataSub t (u ++ v) = u ++ dataSub t v := by
  intro u
  induction u with
  | nil => intro v _; rfl
  | cons c rest ih =>
    intro v h
    simp only [allSuffixNoMatch, Bool.and_eq_true, Option.isNone_iff_eq_none] at h
    obtain ⟨h1, h2⟩ := h
    rw [List.cons_append]
    rw [dataSub_cons_nomatch h1]
    rw [ih v h2]
    rfl

theorem dataSub_self_nomatch (t u : List Char)
    (h : allSuffixNoMatch u [] = true) : dataSub t u = u := by
  have h2 := dataSub_append_nomatch t u [] h
  simpa [dataSub_nil] using h2

theorem hasDataMatch_append {v : List Char} {p : List Char × List Char}
    (hm : matchData v = some p) : ∀ (u : List Char), hasDataMatch (u ++ v) = true := by
  intro u
  induction u with
  | nil => simpa using hasDataMatch_of_matchData hm
  | cons c rest ih =>
    simp only [List.cons_append, hasDataMatch, Bool.or_eq_true]
    exact Or.inr ih

/-- C10: on a document holding two `const data = [...];` statements (with no
further match starting inside the plain segments), a successful injection
replaces BOTH statements with the serialized JSON; the substitution is not
limited to the first match. -/
theorem C10_replaces_every_occurrence (data : List Entry)
    (w1 w2 w3 g1 g2 b1 b2 : List Char)
    (hg1 : G1Shape g1) (hg2 : G1Shape g2)
    (hb1 : findClose b1 = none) (hb2 : findClose b2 = none)
    (hw1 : allSuffixNoMatch w1 (g1 ++ ('[' :: (b1 ++ ']' :: ';' ::
      (w2 ++ (g2 ++ ('[' :: (b2 ++ ']' :: ';' :: w3))))))) = true)
    (hw2 : allSuffixNoMatch w2 (g2 ++ ('[' :: (b2 ++ ']' :: ';' :: w3))) = true)
    (hw3 : allSuffixNoMatch w3 [] = true) :
    update_index_html data
      (w1 ++ (g1 ++ ('[' :: (b1 ++ ']' :: ';' ::
        (w2 ++ (g2 ++ ('[' :: (b2 ++ ']' :: ';' :: w3)))))))) =
    some (w1 ++ (g1 ++ ((jsonDumps data ++ [';']) ++
      (w2 ++ (g2 ++ ((jsonDumps data ++ [';']) ++ w3)))))) := by
  have hm1 : matchData (g1 ++ ('[' :: (b1 ++ ']' :: ';' ::
      (w2 ++ (g2 ++ ('[' :: (b2 ++ ']' :: ';' :: w3))))))) =
      some (g1, w2 ++ (g2 ++ ('[' :: (b2 ++ ']' :: ';' :: w3)))) :=
    matchData_of_shape hg1 hb1
  have hm2 : matchData (g2 ++ ('[' :: (b2 ++ ']' :: ';' :: w3))) = some (g2, w3) :=
    matchData_of_shape hg2 hb2
  unfold update_index_html
  rw [if_pos (hasDataMatch_append hm1 w1)]
  rw [dataSub_append_nomatch _ w1 _ hw1]
  rw [dataSub_match hm1, templateExpand_mkTemplate]
  rw [dataSub_append_nomatch _ w2 _ hw2]
  rw [dataSub_match hm2, templateExpand_mkTemplate]
  rw [dataSub_self_nomatch _ w3 hw3]
  simp [List.append_assoc]

/-- Empty record list for the C10 witness. -/
def w10data : List Entry := []

/-- Text before the first statement. -/
def w10w1 : List Char := "<script>\n".data

/-- Group 1 of the first statement. -/
def w10g1 : List Char := "const data = ".data

/-- Old array body of the first statement. -/
def w10b1 : List Char := "\n  1\n".data

/-- Text between the two statements. -/
def w10w2 : List Char := "\n".data

/-- Group 1 of the second statement (different spacing). -/
def w10g2 : List Char := "const  data=".data

/-- Old array body of the second statement. -/
def w10b2 : List Char := "2".data

/-- Text after the second statement. -/
def w10w3 : List Char := "\n</script>".data

theorem C10_replaces_every_occurrence_witness :
    update_index_html w10data
      (w10w1 ++ (w10g1 ++ ('[' :: (w10b1 ++ ']' :: ';' ::
        (w10w2 ++ (w10g2 ++ ('[' :: (w10b2 ++ ']' :: ';' :: w10w3)))))))) =
    some (w10w1 ++ (w10g1 ++ ((jsonDumps w10data ++ [';']) ++
      (w10w2 ++ (w10g2 ++ ((jsonDumps w10data ++ [';']) ++ w10w3)))))) :=
  C10_replaces_every_occurrence w10data w10w1 w10w2 w10w3 w10g1 w10g2 w10b1 w10b2
    ⟨[' '], [' '], [' '], by decide, by decide, by decide, by decide, by decide⟩
    ⟨[' ', ' '], [], [], by decide, by decide, by decide, by decide, by decide⟩
    (by decide) (by decide) (by decide) (by decide) (by decide)
